import Mathlib

/-!
Verification development for the gitraf-server repository content and
access-gate core.  Go strings are modelled as lists of characters (`Str`);
for the ASCII patterns manipulated here, byte-level and character-level
searching agree on any valid UTF-8 input.  Each `def` below is a shallow
embedding of the correspondingly named Go function; stateful collaborators
(the git object store, the filesystem) are passed in explicitly as data.
-/

abbrev Str := List Char

/-- Conversion from a Lean string literal to the character-list model. -/
def strOf (s : String) : Str := s.data

/-- Embeds Go `strings.TrimSuffix`: drop `pat` from the end of `s` when present. -/
def trimSuffixGo (s pat : Str) : Str :=
  if pat.isSuffixOf s then s.take (s.length - pat.length) else s

/-- Embeds Go `strings.TrimPrefix`: drop `pat` from the front of `s` when present. -/
def trimPrefixGo (s pat : Str) : Str :=
  if pat.isPrefixOf s then s.drop pat.length else s

/-- ASCII white-space predicate used by Go `strings.TrimSpace` (the inputs
relevant here are ASCII; the Unicode-only space classes are not modelled). -/
def goIsSpace (c : Char) : Bool :=
  (c == ' ') || (c == '\t') || (c == '\n') || (c == '\r') || (c == '\x0b') || (c == '\x0c')

/-- Embeds Go `strings.TrimSpace` on ASCII input. -/
def trimSpace (s : Str) : Str :=
  ((s.dropWhile goIsSpace).reverse.dropWhile goIsSpace).reverse

/-- Embeds Go `strings.Split(s, sep)` for a one-character separator.
`Split("") = [""]`, matching Go. -/
def goSplit (s : Str) (sep : Char) : List Str :=
  match s with
  | [] => [[]]
  | c :: rest =>
    if c = sep then [] :: goSplit rest sep
    else
      match goSplit rest sep with
      | t :: ts => (c :: t) :: ts
      | [] => [[c]]

/-- Splits `s` at the last occurrence of the two-character pattern consisting
of a closing bracket followed by a colon, as Go `strings.LastIndex(s, pat)`
would locate it: `some (pre, post)` with `s = pre ++ bracket ++ colon ++ post`
and no later occurrence. -/
def cutLastBrColon : Str → Option (Str × Str)
  | [] => none
  | c :: rest =>
    match cutLastBrColon rest with
    | some (p, q) => some (c :: p, q)
    | none =>
      if c = ']' then
        match rest with
        | ':' :: rest2 => some ([], rest2)
        | _ => none
      else none

/-- Splits `s` at the last occurrence of character `ch` (Go `strings.LastIndex`
with a one-character pattern): `some (pre, post)` with `s = pre ++ ch :: post`. -/
def cutLastChar (ch : Char) : Str → Option (Str × Str)
  | [] => none
  | c :: rest =>
    match cutLastChar ch rest with
    | some (p, q) => some (c :: p, q)
    | none => if c = ch then some ([], rest) else none

/-- Embeds `cleanIPString` from the source: strips brackets/port from a
bracketed literal, strips the port from a literal with exactly one colon,
and leaves any other literal unchanged. -/
def cleanIPString (s : Str) : Str :=
  if ['['].isPrefixOf s then
    match cutLastBrColon s with
    | some (pre, _) => pre.drop 1
    | none => if [']'].isSuffixOf s then (s.drop 1).dropLast else s
  else if s.contains ':' then
    if s.count ':' = 1 then
      match cutLastChar ':' s with
      | some (pre, _) => pre
      | none => s
    else s
  else s

/-- Embeds `GetClientIP` from the source: the real-IP header wins outright,
else the first comma-separated token of the forwarded-for header, trimmed,
else the raw peer address; the selected string is normalized. -/
def GetClientIP (remoteAddr xForwardedFor xRealIP : Str) : Str :=
  if xRealIP ≠ [] then cleanIPString xRealIP
  else if xForwardedFor ≠ [] then
    match goSplit xForwardedFor ',' with
    | t :: _ => cleanIPString (trimSpace t)
    | [] => cleanIPString remoteAddr
  else cleanIPString remoteAddr

/-- Embeds Go `net.dtoi`: parse a decimal prefix, returning the value and the
number of characters consumed; `none` on no digits or on overflow past
`0xFFFFFF` (the `big` sentinel in the Go source). -/
def dtoiAux : Str → Nat → Nat → Option (Nat × Nat)
  | [], n, i => if i = 0 then none else some (n, i)
  | c :: rest, n, i =>
    if '0' ≤ c ∧ c ≤ '9' then
      let n' := n * 10 + (c.toNat - 48)
      if n' ≥ 0xFFFFFF then none else dtoiAux rest n' (i + 1)
    else if i = 0 then none else some (n, i)

def dtoi (s : Str) : Option (Nat × Nat) := dtoiAux s 0 0

/-- Hexadecimal digit value, or `none`. -/
def hexVal (c : Char) : Option Nat :=
  if '0' ≤ c ∧ c ≤ '9' then some (c.toNat - 48)
  else if 'a' ≤ c ∧ c ≤ 'f' then some (c.toNat - 97 + 10)
  else if 'A' ≤ c ∧ c ≤ 'F' then some (c.toNat - 65 + 10)
  else none

/-- Embeds Go `net.xtoi`: parse a hexadecimal prefix, returning the value and
the number of characters consumed; `none` on no digits or on overflow. -/
def xtoiAux : Str → Nat → Nat → Option (Nat × Nat)
  | [], n, i => if i = 0 then none else some (n, i)
  | c :: rest, n, i =>
    match hexVal c with
    | some v =>
      let n' := n * 16 + v
      if n' ≥ 0xFFFFFF then none else xtoiAux rest n' (i + 1)
    | none => if i = 0 then none else some (n, i)

def xtoi (s : Str) : Option (Nat × Nat) := xtoiAux s 0 0

/-- Embeds Go `net.parseIPv4` (Go 1.17 and later): four dot-separated decimal
fields, each at most 255, leading zeros rejected. -/
def parseIPv4Fields : Nat → Str → List Nat → Option (List Nat)
  | 0, s, acc => if s = [] then some acc.reverse else none
  | k + 1, s, acc =>
    let s' : Option Str :=
      if acc = [] then some s
      else match s with
        | '.' :: rest => some rest
        | _ => none
    match s' with
    | none => none
    | some s2 =>
      match dtoi s2 with
      | none => none
      | some (n, c) =>
        if n > 0xFF then none
        else if c > 1 ∧ s2.head? = some '0' then none
        else parseIPv4Fields k (s2.drop c) (n :: acc)

def parseIPv4 (s : Str) : Option (Nat × Nat × Nat × Nat) :=
  match parseIPv4Fields 4 s [] with
  | some [a, b, c, d] => some (a, b, c, d)
  | _ => none

/-- One step of the Go `net.parseIPv6` grammar loop: `bytes` are the bytes
filled so far, `ell` the position of the double-colon when one was seen.
Returns the filled bytes and ellipsis position on clean exit. -/
def parseIPv6Loop : Nat → Str → List Nat → Option Nat → Option (List Nat × Option Nat)
  | 0, _, _, _ => none
  | fuel + 1, s, bytes, ell =>
    if bytes.length ≥ 16 then
      if s = [] then some (bytes, ell) else none
    else
      match xtoi s with
      | none => none
      | some (n, c) =>
        if n > 0xFFFF then none
        else if (s.drop c).head? = some '.' then
          if ell = none ∧ bytes.length ≠ 12 then none
          else if bytes.length + 4 > 16 then none
          else
            match parseIPv4 s with
            | none => none
            | some (a, b, c4, d) => some (bytes ++ [a, b, c4, d], ell)
        else
          let bytes2 := bytes ++ [n / 256, n % 256]
          match s.drop c with
          | [] => some (bytes2, ell)
          | ':' :: s2 =>
            if s2 = [] then none
            else
              match s2 with
              | ':' :: s3 =>
                if ell ≠ none then none
                else if s3 = [] then some (bytes2, some bytes2.length)
                else parseIPv6Loop fuel s3 bytes2 (some bytes2.length)
              | _ => parseIPv6Loop fuel s2 bytes2 ell
          | _ => none

/-- Post-processing of the Go `net.parseIPv6` loop: expand the double-colon
to the missing zero bytes, reject a double-colon in an already-full address. -/
def parseIPv6Finish : Option (List Nat × Option Nat) → Option (List Nat)
  | none => none
  | some (bytes, ell) =>
    if bytes.length < 16 then
      match ell with
      | none => none
      | some e => some (bytes.take e ++ List.replicate (16 - bytes.length) 0 ++ bytes.drop e)
    else
      match ell with
      | none => some bytes
      | some _ => none

/-- Embeds Go `net.parseIPv6` (zone suffixes are not modelled; a percent sign
fails the hex scan exactly as in current Go). -/
def parseIPv6 (s : Str) : Option (List Nat) :=
  match s with
  | ':' :: ':' :: s2 =>
    if s2 = [] then some (List.replicate 16 0)
    else parseIPv6Finish (parseIPv6Loop 9 s2 [] (some 0))
  | _ => parseIPv6Finish (parseIPv6Loop 9 s [] none)

/-- A parsed Go `net.IP`: either a four-octet IPv4 address or sixteen IPv6
bytes. -/
inductive GoIP where
  | v4 (a b c d : Nat)
  | v6 (bytes : List Nat)
deriving DecidableEq

/-- Embeds Go `IP.To4`: an IPv4 address is returned as is; an IPv6 address is
converted exactly when its first twelve bytes are the IPv4-mapped prefix. -/
def GoIP.to4 : GoIP → Option (Nat × Nat × Nat × Nat)
  | .v4 a b c d => some (a, b, c, d)
  | .v6 bs =>
    if bs.length = 16 ∧ bs.take 12 = [0, 0, 0, 0, 0, 0, 0, 0, 0, 0, 255, 255] then
      match bs.drop 12 with
      | [a, b, c, d] => some (a, b, c, d)
      | _ => none
    else none

/-- Embeds Go `net.ParseIP`: the first dot or colon decides between the IPv4
and IPv6 grammars. -/
def goParseIP (s : Str) : Option GoIP :=
  match s.find? (fun c => c = '.' ∨ c = ':') with
  | some '.' => (parseIPv4 s).map (fun p => GoIP.v4 p.1 p.2.1 p.2.2.1 p.2.2.2)
  | some ':' => (parseIPv6 s).map GoIP.v6
  | _ => none

/-- Embeds `IsTailnetIP` from the source: normalize, parse, convert to IPv4,
and test membership in 100.64.0.0/10 (first octet 100, second octet 64-127). -/
def IsTailnetIP (s : Str) : Bool :=
  match goParseIP (cleanIPString s) with
  | none => false
  | some ip =>
    match ip.to4 with
    | none => false
    | some (a, b, _, _) => a == 100 && decide (64 ≤ b) && decide (b ≤ 127)

/-- Outcome of the access-check prefix of a request handler. -/
inductive GateOutcome where
  | notFound
  | forbidden
  | proceed
deriving DecidableEq

/-- Embeds the shared access-check prefix of the content-read handlers
(`handleTree`, `handleBlob`, `handleCommits`, `handleCommit`,
`handleSubmodule`, identical in each): repository existence first, then
access is denied exactly when the repository is private and the caller is
not on the tailnet. -/
def contentReadGate (repoExists isPublic isTailnet : Bool) : GateOutcome :=
  if !repoExists then .notFound
  else if !isPublic && !isTailnet then .forbidden
  else .proceed

/-- Embeds the access-check prefix of the write/administrative handlers
(`handleNewRepoPost`, `handleRepoSettingsPost`, `handleGenerateSSHKey`,
`handleUpdateServer`, `handleLFSConfigPost`): tailnet callers only,
irrespective of any repository's visibility. -/
def adminWriteGate (isTailnet : Bool) : GateOutcome :=
  if !isTailnet then .forbidden else .proceed

/-- Embeds the access-check prefix of `handleLFSBatch`: existence first, then
uploads require the tailnet, and downloads of private repositories require
the tailnet. -/
def lfsBatchGate (repoExists isPublic isTailnet : Bool) (operation : Str) : GateOutcome :=
  if !repoExists then .notFound
  else if operation = strOf "upload" && !isTailnet then .forbidden
  else if operation = strOf "download" && !isPublic && !isTailnet then .forbidden
  else .proceed

/-- A git object hash, modelled as its 20 raw bytes. -/
abbrev GoHash := List Nat

/-- Decode a hexadecimal string into bytes, stopping (like Go
`hex.DecodeString`) at the first byte that is not a full valid hex pair. -/
def hexDecodePrefix : Str → List Nat
  | c1 :: c2 :: rest =>
    match hexVal c1, hexVal c2 with
    | some h, some l => (h * 16 + l) :: hexDecodePrefix rest
    | _, _ => []
  | _ => []

/-- Embeds `plumbing.NewHash`: decode the string as hex (ignoring errors, as
the Go code does) and copy at most 20 bytes into a zero-initialized hash. -/
def goNewHash (s : Str) : GoHash :=
  let b := (hexDecodePrefix s).take 20
  b ++ List.replicate (20 - b.length) 0

/-- Model of the reference-lookup capability of an open go-git repository:
resolved branch and tag lookups, the resolved `HEAD` target (`none` when
`Head()` fails), and commit-object existence. -/
structure RefRepo where
  branch : Str → Option GoHash
  tag : Str → Option GoHash
  head : Option GoHash
  isCommit : GoHash → Bool

/-- Embeds `resolveRef` from the source: branch, then tag, then (for an empty
string or `HEAD`) the `HEAD` target, then a raw commit hash, then `HEAD`
again as the final fallback; an error only when that last `Head()` call
fails. -/
def resolveRef (r : RefRepo) (ref : Str) : Except Unit GoHash :=
  match r.branch ref with
  | some h => .ok h
  | none =>
    match r.tag ref with
    | some h => .ok h
    | none =>
      let step45 : Except Unit GoHash :=
        if r.isCommit (goNewHash ref) then .ok (goNewHash ref)
        else
          match r.head with
          | some h => .ok h
          | none => .error ()
      if ref = strOf "HEAD" ∨ ref = [] then
        match r.head with
        | some h => .ok h
        | none => step45
      else step45

/-- Strict lexicographic order on character lists, as Go compares strings
(byte order and code-point order agree on valid UTF-8). -/
def strLt : Str → Str → Bool
  | [], [] => false
  | [], _ :: _ => true
  | _ :: _, [] => false
  | a :: as, b :: bs => if a < b then true else if b < a then false else strLt as bs

/-- go-git `filemode.FileMode` values that occur in trees. -/
inductive GoFileMode where
  | empty
  | dir
  | regular
  | deprecated
  | executable
  | symlink
  | submodule
deriving DecidableEq

/-- Embeds go-git `FileMode.IsFile`. -/
def GoFileMode.isFile : GoFileMode → Bool
  | .regular | .deprecated | .executable | .symlink => true
  | _ => false

/-- Embeds go-git `FileMode.String` (seven octal digits). -/
def GoFileMode.str : GoFileMode → Str
  | .empty => strOf "0000000"
  | .dir => strOf "0040000"
  | .regular => strOf "0100644"
  | .deprecated => strOf "0100664"
  | .executable => strOf "0100755"
  | .symlink => strOf "0120000"
  | .submodule => strOf "0160000"

/-- A raw entry of a git tree object, as go-git enumerates it. -/
structure TreeEntryRaw where
  name : Str
  mode : GoFileMode
  hash : Str

/-- Embeds the `TreeEntry` record built by `GetTree`. -/
structure TreeEntry where
  name : Str
  isDir : Bool
  isSubmodule : Bool
  mode : Str
  size : Int
  hash : Str
deriving DecidableEq

/-- Embeds the entry-construction loop of `GetTree`: classification from the
file mode, and a lazy size lookup for regular files only (`sizeOf` models
`tree.TreeEntryFile(...).Size`, with a failed lookup leaving the size zero). -/
def mkTreeEntry (sizeOf : Str → Option Int) (e : TreeEntryRaw) : TreeEntry :=
  { name := e.name
    isDir := e.mode == .dir
    isSubmodule := e.mode == .submodule
    mode := e.mode.str
    size := if e.mode.isFile then (match sizeOf e.name with | some n => n | none => 0) else 0
    hash := e.hash }

/-- Embeds the `sort.Slice` comparator of `GetTree`: directories first, then
submodules, then alphabetically by name. -/
def treeLess (a b : TreeEntry) : Bool :=
  if a.isDir != b.isDir then a.isDir
  else if a.isSubmodule != b.isSubmodule then a.isSubmodule
  else strLt a.name b.name

/-- Insertion of one entry into a list sorted by `treeLess`. -/
def insertEntry (x : TreeEntry) : List TreeEntry → List TreeEntry
  | [] => [x]
  | y :: ys => if treeLess y x then y :: insertEntry x ys else x :: y :: ys

/-- Sorting model for `sort.Slice(entries, less)` in `GetTree`: a sorted
permutation with respect to the comparator (Go's sort guarantees exactly
this; it is not stable, and neither property below depends on stability). -/
def sortEntries (l : List TreeEntry) : List TreeEntry := l.foldr insertEntry []

/-- Embeds the entry-listing part of `GetTree`: build one record per raw tree
entry, then sort with the comparator. -/
def GetTreeEntries (sizeOf : Str → Option Int) (raw : List TreeEntryRaw) : List TreeEntry :=
  sortEntries (raw.map (mkTreeEntry sizeOf))

/-- One file patch of a go-git `Patch`: a binary marker and, for text files,
a list of chunks, each a rendered content string with a type tag
(0 equal, 1 add, 2 delete). -/
structure FilePatchM where
  isBinary : Bool
  chunks : List (Str × Nat)
deriving DecidableEq

/-- One entry of the go-git change set between two trees.  `action = none`
models a `change.Action()` error (neither side present); `patch = none`
models a `change.Patch()` error. -/
structure ChangeM where
  action : Option Nat
  fromName : Str
  toName : Str
  patch : Option (List FilePatchM)
deriving DecidableEq

/-- A directory snapshot (git tree), carried with enough data to model
go-git's diff of the empty tree against it: per file a path, a binary
marker, and the rendered content. -/
structure TreeData where
  files : List (Str × Bool × Str)
deriving DecidableEq

/-- A commit object as loaded by go-git: `tree = none` models a failing
`Tree()` call. -/
structure CommitData where
  hash : Str
  message : Str
  author : Str
  email : Str
  parents : List GoHash
  tree : Option TreeData
deriving DecidableEq

/-- Model of the object store consumed by `GetCommitDiff`: commit lookup by
hash, and the two-tree diff capability (`none` models a `Diff` error).  The
diff of the empty baseline against a tree is modelled definitionally by
`diffTreeNil` below, matching go-git `object.DiffTree(nil, tree)`. -/
structure DiffRepo where
  commits : GoHash → Option CommitData
  diff2 : TreeData → TreeData → Option (List ChangeM)

/-- The insertion change go-git reports for one file when diffing the empty
tree against a tree containing it: the patch is a single add-typed chunk
holding the full content (no chunks for binary or empty files). -/
def nilChangeOf (f : Str × Bool × Str) : ChangeM :=
  { action := some 1
    fromName := []
    toName := f.1
    patch := some [{ isBinary := f.2.1
                     chunks := if f.2.1 ∨ f.2.2 = [] then [] else [(f.2.2, 1)] }] }

/-- Models go-git `object.DiffTree(nil, tree)`: every file of the tree is an
insertion. -/
def diffTreeNil (t : TreeData) : List ChangeM :=
  t.files.map nilChangeOf

/-- Embeds the commit-metadata record built by `GetCommitDiff`. -/
structure CommitM where
  hash : Str
  shortHash : Str
  message : Str
  author : Str
  email : Str
deriving DecidableEq

def commitMeta (c : CommitData) : CommitM :=
  { hash := c.hash
    shortHash := c.hash.take 8
    message := trimSpace c.message
    author := c.author
    email := c.email }

/-- Embeds `DiffLine`. -/
structure DiffLineM where
  type : Str
  content : Str
deriving DecidableEq

/-- Embeds `DiffChunk` (the position fields of the source record are never
assigned by `GetCommitDiff` and are omitted). -/
structure DiffChunkM where
  lines : List DiffLineM
deriving DecidableEq

/-- Embeds `FileDiff`. -/
structure FileDiffM where
  name : Str
  oldName : Str
  status : Str
  additions : Nat
  deletions : Nat
  isBinary : Bool
  chunks : List DiffChunkM
deriving DecidableEq

/-- Embeds `DiffStats`. -/
structure DiffStatsM where
  filesChanged : Nat
  additions : Nat
  deletions : Nat
deriving DecidableEq

/-- Embeds `CommitDiff`. -/
structure CommitDiffM where
  commit : CommitM
  parentHash : Str
  files : List FileDiffM
  stats : DiffStatsM
deriving DecidableEq

/-- Embeds the status classification `switch` of `GetCommitDiff`:
returns (status, name, old name).  An action value outside 1..3 leaves all
three empty, as the Go `switch` without a default does. -/
def classifyAction (action : Nat) (fromName toName : Str) : Str × Str × Str :=
  match action with
  | 1 => (strOf "added", toName, [])
  | 2 => (strOf "deleted", fromName, [])
  | 3 =>
    if fromName ≠ toName then (strOf "renamed", toName, fromName)
    else (strOf "modified", toName, [])
  | _ => ([], [], [])

/-- Embeds the line tag `switch` of `GetCommitDiff`. -/
def lineTypeOf (ctype : Nat) : Str :=
  match ctype with
  | 0 => strOf "context"
  | 1 => strOf "add"
  | 2 => strOf "delete"
  | _ => []

/-- Embeds the per-chunk loop of `GetCommitDiff`: split the rendered content
on newlines, drop empty artifacts, tag every line with the chunk's type, and
count this chunk's additions and deletions.  Counters are bumped once per
tagged line, so the count is the number of retained lines when the type
matches. -/
def processChunk (chunk : Str × Nat) : List DiffLineM × Nat × Nat :=
  let lines := (goSplit chunk.1 '\n').filter (fun l => l ≠ [])
  (lines.map (fun l => { type := lineTypeOf chunk.2, content := l }),
   if chunk.2 = 1 then lines.length else 0,
   if chunk.2 = 2 then lines.length else 0)

/-- Embeds the per-file-patch loop of `GetCommitDiff`: a binary file patch
sets the marker and contributes no chunks; otherwise each non-empty chunk is
retained, and the addition/deletion counters accumulate. -/
def processFilePatches (fps : List FilePatchM) : Bool × List DiffChunkM × Nat × Nat :=
  fps.foldl
    (fun acc fp =>
      if fp.isBinary then (true, acc.2.1, acc.2.2.1, acc.2.2.2)
      else
        fp.chunks.foldl
          (fun acc2 chunk =>
            let r := processChunk chunk
            (acc2.1,
             (if r.1 ≠ [] then acc2.2.1 ++ [{ lines := r.1 }] else acc2.2.1),
             acc2.2.2.1 + r.2.1,
             acc2.2.2.2 + r.2.2))
          acc)
    (false, [], 0, 0)

/-- Embeds the per-change body of the `GetCommitDiff` loop: `none` when the
change is skipped because its action cannot be classified. -/
def processChange (ch : ChangeM) : Option FileDiffM :=
  match ch.action with
  | none => none
  | some a =>
    let cls := classifyAction a ch.fromName ch.toName
    let pp :=
      match ch.patch with
      | some fps => processFilePatches fps
      | none => (false, [], 0, 0)
    some
      { name := cls.2.1
        oldName := cls.2.2
        status := cls.1
        additions := pp.2.2.1
        deletions := pp.2.2.2
        isBinary := pp.1
        chunks := pp.2.1 }

/-- Embeds the whole change loop of `GetCommitDiff`, accumulating the file
list and the running statistics. -/
def processChanges (base : CommitDiffM) (changes : List ChangeM) : CommitDiffM :=
  changes.foldl
    (fun res ch =>
      match processChange ch with
      | none => res
      | some fd =>
        { res with
            files := res.files ++ [fd]
            stats :=
              { filesChanged := res.stats.filesChanged + 1
                additions := res.stats.additions + fd.additions
                deletions := res.stats.deletions + fd.deletions } })
    base

/-- Embeds `GetCommitDiff` from the source: load the commit, record the first
parent's short hash and tree when the parent resolves, and degrade to a
metadata-only result when the commit's own tree or the tree comparison fails
to load.  `parentInfoOf` embeds the parent-lookup prologue: the first
parent's short hash and tree when the parent resolves, nothing otherwise. -/
def parentInfoOf (r : DiffRepo) (commit : CommitData) : Str × Option TreeData :=
  match commit.parents with
  | [] => ([], none)
  | p :: _ =>
    match r.commits p with
    | some parent => (parent.hash.take 8, parent.tree)
    | none => ([], none)

def GetCommitDiff (r : DiffRepo) (hash : Str) : Option CommitDiffM :=
  match r.commits (goNewHash hash) with
  | none => none
  | some commit =>
    let parentInfo : Str × Option TreeData := parentInfoOf r commit
    let base : CommitDiffM :=
      { commit := commitMeta commit
        parentHash := parentInfo.1
        files := []
        stats := { filesChanged := 0, additions := 0, deletions := 0 } }
    match commit.tree with
    | none => some base
    | some currentTree =>
      let changesOpt : Option (List ChangeM) :=
        match parentInfo.2 with
        | some pt => r.diff2 pt currentTree
        | none => some (diffTreeNil currentTree)
      match changesOpt with
      | none => some base
      | some changes => some (processChanges base changes)

/-- Embeds Go `strings.Contains` (substring test). -/
def containsSub (s pat : Str) : Bool :=
  if pat.isPrefixOf s then true
  else
    match s with
    | [] => false
    | _ :: rest => containsSub rest pat

/-- Embeds `formatWebURL` from the source: host-specific templates for three
public hosting services, a same-origin relative link for the internal host,
and a generic fallback. -/
def formatWebURL (host path hash : Str) : Str :=
  if containsSub host (strOf "github.com") then
    strOf "https://github.com/" ++ path ++ strOf "/tree/" ++ hash
  else if containsSub host (strOf "gitlab.com") then
    strOf "https://gitlab.com/" ++ path ++ strOf "/-/tree/" ++ hash
  else if containsSub host (strOf "bitbucket.org") then
    strOf "https://bitbucket.org/" ++ path ++ strOf "/src/" ++ hash
  else if containsSub host (strOf "git.rafayel.dev") then
    match goSplit path '/' with
    | [] => strOf "https://" ++ host ++ strOf "/" ++ path
    | ps => strOf "/" ++ trimSuffixGo (ps.getLastD []) (strOf ".git") ++ strOf "/tree/" ++ hash ++ strOf "/"
  else strOf "https://" ++ host ++ strOf "/" ++ path

/-- Embeds the anchored Go regular expression match of `ConvertToWebURL` for
the SCP-style form: after a literal `git@` prefix, the host is the non-empty
colon-free run up to the first colon; the lazily matched path is the
non-empty remainder, with one trailing `.git` absorbed by the optional
suffix group when the remainder is longer than the suffix itself. -/
def scpMatch (s : Str) : Option (Str × Str) :=
  if (strOf "git@").isPrefixOf s then
    let rest1 := s.drop 4
    let host := rest1.takeWhile (fun c => c ≠ ':')
    match rest1.drop host.length with
    | ':' :: rest =>
      if host = [] ∨ rest = [] then none
      else
        some (host,
          if (strOf ".git").isSuffixOf rest ∧ rest.length > 4 then
            rest.take (rest.length - 4)
          else rest)
    | _ => none
  else none

/-- Characters Go `net/url` accepts in a scheme after the first letter. -/
def isSchemeChar (c : Char) : Bool :=
  c.isAlpha || c.isDigit || c == '+' || c == '-' || c == '.'

/-- Percent-decoding of a URL path, `none` on an incomplete or invalid
escape, identity on escape-free input (matching Go `url.unescape` on the
ASCII inputs considered here). -/
def unescapePath : Str → Option Str
  | [] => some []
  | '%' :: rest =>
    match rest with
    | c1 :: c2 :: rest2 =>
      match hexVal c1, hexVal c2 with
      | some h, some l => (unescapePath rest2).map (fun r => Char.ofNat (h * 16 + l) :: r)
      | _, _ => none
    | _ => none
  | c :: rest => (unescapePath rest).map (fun r => c :: r)

/-- Model of the `(parsed.Host, parsed.Path)` pair of Go `url.Parse`, as
consumed by `ConvertToWebURL`, on URLs of the shape
`scheme://[userinfo@]host/path` (optionally scheme-less with a leading
`//`): the authority runs to the first slash, question mark or hash; the
host is the part of the authority after the last `@`; the path is the
percent-decoded remainder before any query or fragment.  Inputs with no
authority at all yield no host, matching Go, and `ConvertToWebURL` then
returns its argument unchanged.  `urlAuthorityPart` handles everything after
the two slashes. -/
def urlAuthorityPart (rest : Str) : Option (Str × Str) :=
  let auth := rest.takeWhile (fun c => !(c == '/') && !(c == '?') && !(c == '#'))
  let host :=
    match cutLastChar '@' auth with
    | some (_, q) => q
    | none => auth
  if host = [] then none
  else
    let rawPath := (rest.drop auth.length).takeWhile (fun c => !(c == '?') && !(c == '#'))
    match unescapePath rawPath with
    | none => none
    | some p => some (host, p)

/-- The full URL-shape recognizer: an optional scheme (or a bare leading
double slash) followed by the authority and path. -/
def urlHostPath (s : Str) : Option (Str × Str) :=
  let afterSlashes : Option Str :=
    if (strOf "//").isPrefixOf s then some (s.drop 2)
    else
      let sch := s.takeWhile isSchemeChar
      match sch.head? with
      | some c =>
        if c.isAlpha ∧ (strOf "://").isPrefixOf (s.drop sch.length) then
          some (s.drop (sch.length + 3))
        else none
      | none => none
  match afterSlashes with
  | none => none
  | some rest => urlAuthorityPart rest

/-- Embeds `ConvertToWebURL` from the source: try the SCP-style form, then
the standard URL form, and return the input unchanged when neither
yields a host. -/
def ConvertToWebURL (gitURL hash : Str) : Str :=
  match scpMatch gitURL with
  | some hp => formatWebURL hp.1 (trimSuffixGo hp.2 (strOf ".git")) hash
  | none =>
    match urlHostPath gitURL with
    | some hp =>
      formatWebURL hp.1 (trimPrefixGo (trimSuffixGo hp.2 (strOf ".git")) (strOf "/")) hash
    | none => gitURL

/-- Rank induced by the `GetTree` comparator: directories, then submodules,
then files (the first summand dominates, so a well-formed entry gets 1, 2 or
3). -/
def rank2 (e : TreeEntry) : Nat :=
  (if e.isDir then 0 else 2) + (if e.isSubmodule then 0 else 1)

/-- The three-group rank the spec describes: directory 0, submodule 1,
file 2. -/
def entryRank (e : TreeEntry) : Nat :=
  if e.isDir then 0 else if e.isSubmodule then 1 else 2

/-- The ordering contract claimed for `GetTree` listings: strictly earlier
group, or same group and lexicographically non-decreasing name. -/
def entryOrd (a b : TreeEntry) : Prop :=
  entryRank a < entryRank b ∨ (entryRank a = entryRank b ∧ strLt b.name a.name = false)

/-- The result of `sort.Slice` never places `b` strictly before `a` when the
comparator orders `a` before `b`; `entryLE a b` states that `b` may follow
`a`. -/
def entryLE (a b : TreeEntry) : Prop := treeLess b a = false

/-- A tree entry cannot be classified both directory and submodule; the two
flags come from one file mode. -/
def entryWf (e : TreeEntry) : Prop := ¬(e.isDir = true ∧ e.isSubmodule = true)

/-- Number of add-tagged lines of one output chunk. -/
def chunkAddCount (ch : DiffChunkM) : Nat :=
  (ch.lines.filter (fun l => l.type = strOf "add")).length

/-- Number of delete-tagged lines of one output chunk. -/
def chunkDelCount (ch : DiffChunkM) : Nat :=
  (ch.lines.filter (fun l => l.type = strOf "delete")).length

/-- Add-tagged lines summed over the chunks of one file diff. -/
def fileAddCount (f : FileDiffM) : Nat := (f.chunks.map chunkAddCount).sum

/-- Delete-tagged lines summed over the chunks of one file diff. -/
def fileDelCount (f : FileDiffM) : Nat := (f.chunks.map chunkDelCount).sum

/-- Add-tagged lines summed over all chunks of all file diffs. -/
def totalAddLines (fs : List FileDiffM) : Nat := (fs.map fileAddCount).sum

/-- Delete-tagged lines summed over all chunks of all file diffs. -/
def totalDelLines (fs : List FileDiffM) : Nat := (fs.map fileDelCount).sum

/-- Invariant of the file-patch accumulator: the running counters equal the
line counts of the retained chunks. -/
def ppInv (acc : Bool × List DiffChunkM × Nat × Nat) : Prop :=
  (acc.2.1.map chunkAddCount).sum = acc.2.2.1 ∧
  (acc.2.1.map chunkDelCount).sum = acc.2.2.2

/-- Fallback record used to name concrete diff results in witnesses. -/
def emptyDiffM : CommitDiffM :=
  { commit := { hash := [], shortHash := [], message := [], author := [], email := [] }
    parentHash := [], files := []
    stats := { filesChanged := 0, additions := 0, deletions := 0 } }

/-- Concrete root commit: two files, one binary, no parents. -/
def rootCommitW : CommitData :=
  { hash := strOf "aabbccdd00112233445566778899aabbccddeeff"
    message := strOf "init"
    author := strOf "ann"
    email := strOf "ann@example.com"
    parents := []
    tree := some { files := [(strOf "a.txt", false, strOf "hello\nworld\n"),
                             (strOf "logo.png", true, strOf "binarybytes")] } }

def rootRepoW : DiffRepo :=
  { commits := fun h => if h = goNewHash (strOf "aabbccdd") then some rootCommitW else none
    diff2 := fun _ _ => none }

def rootResW : CommitDiffM := (GetCommitDiff rootRepoW (strOf "aabbccdd")).getD emptyDiffM

/-- Concrete parent commit with an empty tree. -/
def diffParentW : CommitData :=
  { hash := strOf "0099887766554433221100ffeeddccbbaa998877"
    message := strOf "base"
    author := strOf "bob"
    email := strOf "bob@example.com"
    parents := []
    tree := some { files := [] } }

/-- Concrete child commit whose diff against the parent mixes add, delete
and context chunks, a binary file patch, and an unclassifiable change. -/
def diffCommitW : CommitData :=
  { hash := strOf "ffeeddccbbaa99887766554433221100ffeedd00"
    message := strOf "change"
    author := strOf "bob"
    email := strOf "bob@example.com"
    parents := [[7]]
    tree := some { files := [] } }

def diffRepoW : DiffRepo :=
  { commits := fun h =>
      if h = goNewHash (strOf "ffeeddcc") then some diffCommitW
      else if h = [7] then some diffParentW
      else none
    diff2 := fun _ _ => some
      [{ action := some 3, fromName := strOf "a", toName := strOf "a"
         patch := some [{ isBinary := false
                          chunks := [(strOf "l1\nl2\n", 1), (strOf "old\n", 2),
                                     (strOf "ctx\n", 0), (strOf "", 1)] }] },
       { action := none, fromName := [], toName := []
         patch := none },
       { action := some 1, fromName := [], toName := strOf "img"
         patch := some [{ isBinary := true, chunks := [] }] }] }

def diffResW : CommitDiffM := (GetCommitDiff diffRepoW (strOf "ffeeddcc")).getD emptyDiffM

/-- Concrete commit whose tree fails to load. -/
def brokenCommitW : CommitData :=
  { hash := strOf "1234123412341234123412341234123412341234"
    message := strOf "  broken  "
    author := strOf "cio"
    email := strOf "c@example.com"
    parents := []
    tree := none }

def brokenRepoW : DiffRepo :=
  { commits := fun h => if h = goNewHash (strOf "12341234") then some brokenCommitW else none
    diff2 := fun _ _ => none }

/-- Host characters for the URL-agreement theorem: letters, digits, dots and
hyphens (no colon, slash, at-sign or URL metacharacter). -/
def hostChar (c : Char) : Bool := c.isAlphanum || c == '.' || c == '-'

/-- Path characters for the URL-agreement theorem: letters, digits, dots,
hyphens, underscores and slashes. -/
def pathChar (c : Char) : Bool :=
  c.isAlphanum || c == '.' || c == '-' || c == '_' || c == '/'

/-- C1: for every existing repository and every request, a write or
administrative operation (repository creation, settings mutation, credential
generation, binary update, large-object upload) from an untrusted origin is
always denied; a content read (tree, blob, commit listing, commit diff,
submodule detail) from a trusted origin is always granted, irrespective of
the repository's visibility marker; and a read from an untrusted origin is
granted exactly when the repository is public. -/
theorem accessGate_policy :
    ∀ isPublic : Bool,
      adminWriteGate false = GateOutcome.forbidden ∧
      lfsBatchGate true isPublic false (strOf "upload") = GateOutcome.forbidden ∧
      contentReadGate true isPublic true = GateOutcome.proceed ∧
      lfsBatchGate true isPublic true (strOf "download") = GateOutcome.proceed ∧
      (contentReadGate true isPublic false = GateOutcome.proceed ↔ isPublic = true) := by
  decide

/-- C2 counterexample: the claim asserts the classifier returns false for
every IPv6 literal, but the IPv4-mapped IPv6 literal `::ffff:100.64.0.1` is
classified as trusted by the code. -/
theorem isTailnetIP_ipv6_counterexample :
    IsTailnetIP (strOf "::ffff:100.64.0.1") = true := by decide

/-- C2 (amended): for every literal whose normalized form parses as IPv4 the
classifier returns true iff the first octet is 100 and the second lies in
[64,127]; it returns false for every unparsable literal and for every IPv6
literal that is not IPv4-mapped (an IPv4-mapped IPv6 literal is instead
evaluated on its embedded IPv4 address); being a total function, it never
raises an error on malformed input. -/
theorem isTailnetIP_range (s : Str) :
    (∀ a b c d : Nat, goParseIP (cleanIPString s) = some (GoIP.v4 a b c d) →
      (IsTailnetIP s = true ↔ (a = 100 ∧ 64 ≤ b ∧ b ≤ 127))) ∧
    (goParseIP (cleanIPString s) = none → IsTailnetIP s = false) ∧
    (∀ ip : GoIP, goParseIP (cleanIPString s) = some ip → ip.to4 = none →
      IsTailnetIP s = false) := by
  refine ⟨fun a b c d h => ?_, fun h => ?_, fun ip h h4 => ?_⟩ <;>
    simp only [IsTailnetIP, h]
  · simp [GoIP.to4, Bool.and_eq_true, decide_eq_true_eq, beq_iff_eq, and_assoc]
  · simp [h4]

/-- Witness for C2: the spec's own sample literals, evaluated concretely
through the amended theorem. -/
theorem isTailnetIP_range_witness :
    goParseIP (cleanIPString (strOf "100.64.0.1")) = some (GoIP.v4 100 64 0 1) ∧
    IsTailnetIP (strOf "100.64.0.1") = true ∧
    goParseIP (cleanIPString (strOf "not-an-ip")) = none ∧
    IsTailnetIP (strOf "not-an-ip") = false := by
  refine ⟨by decide, ?_, by decide, ?_⟩
  · exact ((isTailnetIP_range (strOf "100.64.0.1")).1 100 64 0 1 (by decide)).mpr
      ⟨rfl, by decide, by decide⟩
  · exact (isTailnetIP_range (strOf "not-an-ip")).2.1 (by decide)

/-- C10: for every IPv4-mapped IPv6 literal, the classifier evaluates the
embedded IPv4 address: it returns true exactly when the embedded first octet
is 100 and the second lies in [64,127], although the input is textually an
IPv6 literal. -/
theorem isTailnetIP_v4mapped (s : Str) (bs : List Nat) (a b c d : Nat)
    (h : goParseIP (cleanIPString s) = some (GoIP.v6 bs))
    (h4 : (GoIP.v6 bs).to4 = some (a, b, c, d)) :
    (IsTailnetIP s = true ↔ (a = 100 ∧ 64 ≤ b ∧ b ≤ 127)) := by
  simp only [IsTailnetIP, h, h4]
  simp [Bool.and_eq_true, decide_eq_true_eq, beq_iff_eq, and_assoc]

lemma goSplit_head (s : Str) (c : Char) :
    ∃ ts, goSplit s c = (s.takeWhile (fun x => x ≠ c)) :: ts := by
  induction s with
  | nil => exact ⟨[], rfl⟩
  | cons a rest ih =>
    obtain ⟨ts, hts⟩ := ih
    by_cases ha : a = c
    · exact ⟨goSplit rest c, by simp [goSplit, ha, List.takeWhile_cons]⟩
    · exact ⟨ts, by simp [goSplit, ha, hts, List.takeWhile_cons]⟩

lemma cutLastBrColon_of_not_mem {s : Str} (h : ']' ∉ s) : cutLastBrColon s = none := by
  induction s with
  | nil => rfl
  | cons a rest ih =>
    have ha : a ≠ ']' := fun he => h (he ▸ List.mem_cons_self a rest)
    have hr : ']' ∉ rest := fun hm => h (List.mem_cons_of_mem a hm)
    simp [cutLastBrColon, ih hr, ha]

lemma cutLastBrColon_append {u v : Str} (hu : ']' ∉ u) (hp : ']' ∉ v) :
    cutLastBrColon (u ++ ']' :: ':' :: v) = some (u, v) := by
  induction u with
  | nil =>
    have h0 : cutLastBrColon v = none :=
      cutLastBrColon_of_not_mem hp
    simp [cutLastBrColon, h0]
  | cons a rest ih =>
    have hr : ']' ∉ rest := fun hm => hu (List.mem_cons_of_mem a hm)
    simp [cutLastBrColon, ih hr]

lemma cutLastBrColon_no_colon {u : Str} (hu : ']' ∉ u) :
    cutLastBrColon (u ++ [']']) = none := by
  induction u with
  | nil => rfl
  | cons a rest ih =>
    have ha : a ≠ ']' := fun he => hu (he ▸ List.mem_cons_self a rest)
    have hr : ']' ∉ rest := fun hm => hu (List.mem_cons_of_mem a hm)
    simp [cutLastBrColon, ih hr, ha]

lemma cutLastChar_of_not_mem {ch : Char} {s : Str} (h : ch ∉ s) :
    cutLastChar ch s = none := by
  induction s with
  | nil => rfl
  | cons a rest ih =>
    have ha : a ≠ ch := fun he => h (he ▸ List.mem_cons_self a rest)
    have hr : ch ∉ rest := fun hm => h (List.mem_cons_of_mem a hm)
    simp [cutLastChar, ih hr, ha]

lemma cutLastChar_append {ch : Char} {a b : Str} (ha : ch ∉ a) (hb : ch ∉ b) :
    cutLastChar ch (a ++ ch :: b) = some (a, b) := by
  induction a with
  | nil => simp [cutLastChar, cutLastChar_of_not_mem hb]
  | cons x rest ih =>
    have hx : x ≠ ch := fun he => ha (he ▸ List.mem_cons_self x rest)
    have hr : ch ∉ rest := fun hm => ha (List.mem_cons_of_mem x hm)
    simp [cutLastChar, ih hr]

lemma takeWhile_middle {p : Char → Bool} {l1 l2 : Str} {c : Char}
    (h1 : ∀ x ∈ l1, p x = true) (hc : p c = false) :
    (l1 ++ c :: l2).takeWhile p = l1 := by
  induction l1 with
  | nil => simp [List.takeWhile_cons, hc]
  | cons a rest ih =>
    have ha : p a = true := h1 a (List.mem_cons_self a rest)
    simp [List.takeWhile_cons, ha, ih (fun x hx => h1 x (List.mem_cons_of_mem a hx))]

lemma bracket_isPrefixOf_iff (s : Str) :
    ['['].isPrefixOf s = true ↔ s.head? = some '[' := by
  cases s with
  | nil => simp [List.isPrefixOf]
  | cons a t =>
    simp only [List.isPrefixOf, List.head?_cons, Option.some_inj, Bool.and_eq_true,
      beq_iff_eq, and_true]
    exact eq_comm

/-- C3: the resolved client address is the real-IP header whenever non-empty,
else the first comma-separated token of the forwarded-for header, trimmed,
whenever that header is non-empty, else the raw peer address — and the
selected string is then normalized: brackets and port are stripped from a
bracketed literal, the port is stripped from a literal containing exactly
one colon, and any other colon-containing literal is left untouched. -/
theorem getClientIP_spec :
    (∀ remoteAddr fwd realIP : Str,
       GetClientIP remoteAddr fwd realIP =
         cleanIPString
           (if realIP ≠ [] then realIP
            else if fwd ≠ [] then trimSpace (fwd.takeWhile (fun x => x ≠ ','))
            else remoteAddr)) ∧
    (∀ ip port : Str, ']' ∉ ip → ']' ∉ port →
       cleanIPString ('[' :: ip ++ ']' :: ':' :: port) = ip) ∧
    (∀ ip : Str, ']' ∉ ip → cleanIPString ('[' :: ip ++ [']']) = ip) ∧
    (∀ a b : Str, ':' ∉ a → ':' ∉ b → (a ++ ':' :: b).head? ≠ some '[' →
       cleanIPString (a ++ ':' :: b) = a) ∧
    (∀ s : Str, s.head? ≠ some '[' → 2 ≤ s.count ':' → cleanIPString s = s) := by
  refine ⟨fun remoteAddr fwd realIP => ?_, fun ip port hip hport => ?_,
    fun ip hip => ?_, fun a b hca hcb hh => ?_, fun s hh hcount => ?_⟩
  · unfold GetClientIP
    by_cases hreal : realIP = []
    · have hr2 : ¬ realIP ≠ [] := fun h => h hreal
      rw [if_neg hr2, if_neg hr2]
      by_cases hfwd : fwd = []
      · have hf2 : ¬ fwd ≠ [] := fun h => h hfwd
        rw [if_neg hf2, if_neg hf2]
      · obtain ⟨ts, hts⟩ := goSplit_head fwd ','
        rw [if_pos hfwd, if_pos hfwd, hts]
    · rw [if_pos hreal, if_pos hreal]
  · have hpre : ['['].isPrefixOf ('[' :: ip ++ ']' :: ':' :: port) = true := by
      simp [List.isPrefixOf]
    have hcut : cutLastBrColon ('[' :: (ip ++ ']' :: ':' :: port)) = some ('[' :: ip, port) := by
      have h0 := cutLastBrColon_append (u := '[' :: ip) (v := port) (by simp [hip]) hport
      simpa using h0
    simp [cleanIPString, hpre, hcut]
  · have hpre : ['['].isPrefixOf ('[' :: ip ++ [']']) = true := by
      simp [List.isPrefixOf]
    have hcut : cutLastBrColon ('[' :: (ip ++ [']'])) = none := by
      have h0 := cutLastBrColon_no_colon (u := '[' :: ip) (by simp [hip])
      simpa using h0
    have hsuf : [']'] <:+ '[' :: (ip ++ [']']) := ⟨'[' :: ip, by simp⟩
    have hdl : (ip ++ [']']).dropLast = ip := List.dropLast_concat
    simp [cleanIPString, hpre, hcut, hsuf, hdl]
  · have hpre : ['['].isPrefixOf (a ++ ':' :: b) = false := by
      rcases h : ['['].isPrefixOf (a ++ ':' :: b) with _ | _
      · rfl
      · exact absurd ((bracket_isPrefixOf_iff _).mp h) hh
    have hmem : ':' ∈ a ++ ':' :: b := by simp
    have hcount1 : (a ++ ':' :: b).count ':' = 1 := by
      rw [List.count_append, List.count_cons_self,
        List.count_eq_zero_of_not_mem hca, List.count_eq_zero_of_not_mem hcb]
    have hcut : cutLastChar ':' (a ++ ':' :: b) = some (a, b) := cutLastChar_append hca hcb
    simp [cleanIPString, hpre, hmem, hcount1, hcut]
  · have hpre : ['['].isPrefixOf s = false := by
      rcases h : ['['].isPrefixOf s with _ | _
      · rfl
      · exact absurd ((bracket_isPrefixOf_iff _).mp h) hh
    have hne : s.count ':' ≠ 1 := by omega
    by_cases hmem : ':' ∈ s
    · simp [cleanIPString, hpre, hmem, hne]
    · simp [cleanIPString, hpre, hmem]

/-- Witness for C3: the spec's header-precedence example and one instance of
each normalization case. -/
theorem getClientIP_spec_witness :
    GetClientIP (strOf "9.9.9.9:1") (strOf "8.8.8.8, 1.1.1.1") (strOf "100.100.1.1")
      = cleanIPString (strOf "100.100.1.1") ∧
    cleanIPString (strOf "[2001:db8::1]:443") = strOf "2001:db8::1" ∧
    cleanIPString (strOf "[::1]") = strOf "::1" ∧
    cleanIPString (strOf "1.2.3.4:80") = strOf "1.2.3.4" ∧
    cleanIPString (strOf "2001:db8::1") = strOf "2001:db8::1" := by
  refine ⟨?_, ?_, ?_, ?_, ?_⟩
  · exact (getClientIP_spec.1 (strOf "9.9.9.9:1") (strOf "8.8.8.8, 1.1.1.1")
      (strOf "100.100.1.1")).trans (by decide)
  · exact getClientIP_spec.2.1 (strOf "2001:db8::1") (strOf "443")
      (by decide) (by decide)
  · exact getClientIP_spec.2.2.1 (strOf "::1") (by decide)
  · exact getClientIP_spec.2.2.2.1 (strOf "1.2.3.4") (strOf "80")
      (by decide) (by decide) (by decide)
  · exact getClientIP_spec.2.2.2.2 (strOf "2001:db8::1") (by decide) (by decide)

lemma strLt_asymm : ∀ {a b : Str}, strLt a b = true → strLt b a = false := by
  intro a
  induction a with
  | nil =>
    intro b h
    cases b with
    | nil => simp [strLt] at h
    | cons y ys => rfl
  | cons x xs ih =>
    intro b h
    cases b with
    | nil => simp [strLt] at h
    | cons y ys =>
      simp only [strLt] at h ⊢
      by_cases h1 : x < y
      · simp [h1, lt_asymm h1]
      · by_cases h2 : y < x
        · simp [h1, h2] at h
        · simp [h1, h2] at h ⊢
          exact ih h

lemma strLt_trans : ∀ {a b c : Str}, strLt a b = true → strLt b c = true →
    strLt a c = true := by
  intro a
  induction a with
  | nil =>
    intro b c h1 h2
    cases b with
    | nil => simp [strLt] at h1
    | cons y ys =>
      cases c with
      | nil => simp [strLt] at h2
      | cons z zs => rfl
  | cons x xs ih =>
    intro b c h1 h2
    cases b with
    | nil => simp [strLt] at h1
    | cons y ys =>
      cases c with
      | nil => simp [strLt] at h2
      | cons z zs =>
        simp only [strLt] at h1 h2 ⊢
        by_cases hxy : x < y
        · by_cases hyz : y < z
          · simp [lt_trans hxy hyz]
          · by_cases hzy : z < y
            · simp [hyz, hzy] at h2
            · have heq : y = z := le_antisymm (not_lt.mp hzy) (not_lt.mp hyz)
              simp [heq ▸ hxy]
        · by_cases hyx : y < x
          · simp [hxy, hyx] at h1
          · have heq : x = y := le_antisymm (not_lt.mp hyx) (not_lt.mp hxy)
            subst heq
            simp [hxy, hyx] at h1
            by_cases hyz : x < z
            · simp [hyz]
            · by_cases hzy : z < x
              · simp [hyz, hzy] at h2
              · simp [hyz, hzy] at h2 ⊢
                exact ih h1 h2

lemma strLt_connex : ∀ {a b : Str}, strLt a b = false → strLt b a = false → a = b := by
  intro a
  induction a with
  | nil =>
    intro b h1 _
    cases b with
    | nil => rfl
    | cons y ys => simp [strLt] at h1
  | cons x xs ih =>
    intro b h1 h2
    cases b with
    | nil => simp [strLt] at h2
    | cons y ys =>
      simp only [strLt] at h1 h2
      by_cases hxy : x < y
      · simp [hxy] at h1
      · by_cases hyx : y < x
        · simp [hyx] at h2
        · have heq : x = y := le_antisymm (not_lt.mp hyx) (not_lt.mp hxy)
          simp [hxy, hyx] at h1 h2
          rw [heq, ih h1 h2]

lemma strLt_false_trans {x y z : Str} (h1 : strLt y x = false) (h2 : strLt z y = false) :
    strLt z x = false := by
  rcases h : strLt z x with _ | _
  · rfl
  · exfalso
    rcases hy : strLt y z with _ | _
    · rw [strLt_connex hy h2] at h1
      rw [h1] at h
      exact Bool.false_ne_true h
    · have := strLt_trans hy h
      rw [this] at h1
      exact Bool.false_ne_true h1.symm

lemma treeLess_iff (a b : TreeEntry) :
    treeLess a b = true ↔
      (rank2 a < rank2 b ∨ (rank2 a = rank2 b ∧ strLt a.name b.name = true)) := by
  cases ha : a.isDir <;> cases hb : b.isDir <;>
    cases ha2 : a.isSubmodule <;> cases hb2 : b.isSubmodule <;>
    simp [treeLess, rank2, ha, hb, ha2, hb2]

lemma treeLess_asymm {a b : TreeEntry} (h : treeLess a b = true) : treeLess b a = false := by
  rw [← Bool.not_eq_true, treeLess_iff]
  rcases (treeLess_iff a b).mp h with hlt | ⟨heq, hname⟩
  · rintro (h2 | ⟨h2, _⟩) <;> omega
  · rintro (h2 | ⟨h2, hn2⟩)
    · omega
    · rw [strLt_asymm hname] at hn2
      exact Bool.false_ne_true hn2

lemma entryLE_trans {a b c : TreeEntry} (h1 : entryLE a b) (h2 : entryLE b c) :
    entryLE a c := by
  unfold entryLE at h1 h2 ⊢
  rw [← Bool.not_eq_true, treeLess_iff] at h1 h2 ⊢
  push_neg at h1 h2
  rintro (hlt | ⟨heq, hname⟩)
  · omega
  · have hn1 := h1.2 (by omega)
    have hn2 := h2.2 (by omega)
    have := strLt_false_trans (Bool.eq_false_iff.mpr hn1) (Bool.eq_false_iff.mpr hn2)
    rw [this] at hname
    exact Bool.false_ne_true hname

lemma insertEntry_perm (x : TreeEntry) (l : List TreeEntry) :
    (insertEntry x l).Perm (x :: l) := by
  induction l with
  | nil => exact List.Perm.refl _
  | cons y ys ih =>
    simp only [insertEntry]
    by_cases h : treeLess y x = true
    · rw [if_pos h]
      exact (ih.cons y).trans (List.Perm.swap x y ys)
    · rw [if_neg h]

lemma pairwise_insertEntry {x : TreeEntry} {l : List TreeEntry}
    (hl : l.Pairwise entryLE) : (insertEntry x l).Pairwise entryLE := by
  induction l with
  | nil => simp [insertEntry, entryLE]
  | cons y ys ih =>
    rcases List.pairwise_cons.mp hl with ⟨hy, hys⟩
    simp only [insertEntry]
    by_cases h : treeLess y x = true
    · rw [if_pos h]
      refine List.pairwise_cons.mpr ⟨?_, ih hys⟩
      intro z hz
      rcases List.mem_cons.mp ((insertEntry_perm x ys).mem_iff.mp hz) with rfl | hz2
      · exact treeLess_asymm h
      · exact hy z hz2
    · rw [if_neg h]
      refine List.pairwise_cons.mpr ⟨?_, hl⟩
      intro z hz
      rcases List.mem_cons.mp hz with rfl | hz2
      · exact Bool.eq_false_iff.mpr h
      · exact entryLE_trans (Bool.eq_false_iff.mpr h) (hy z hz2)

lemma sortEntries_perm (l : List TreeEntry) : (sortEntries l).Perm l := by
  induction l with
  | nil => exact List.Perm.refl _
  | cons x xs ih =>
    simp only [sortEntries, List.foldr_cons]
    exact (insertEntry_perm x _).trans (ih.cons x)

lemma sortEntries_pairwise (l : List TreeEntry) : (sortEntries l).Pairwise entryLE := by
  induction l with
  | nil => simp [sortEntries]
  | cons x xs ih => exact pairwise_insertEntry ih

lemma mkTreeEntry_wf (sizeOf : Str → Option Int) (f : TreeEntryRaw) :
    entryWf (mkTreeEntry sizeOf f) := by
  cases h : f.mode <;> simp [mkTreeEntry, entryWf, h]

lemma rank2_eq_entryRank {e : TreeEntry} (he : entryWf e) : rank2 e = entryRank e + 1 := by
  cases hd : e.isDir <;> cases hs : e.isSubmodule <;>
    simp [rank2, entryRank, hd, hs]
  exact absurd ⟨hd, hs⟩ he

lemma entryLE_imp_ord {a b : TreeEntry} (ha : entryWf a) (hb : entryWf b)
    (h : entryLE a b) : entryOrd a b := by
  unfold entryLE at h
  rw [← Bool.not_eq_true, treeLess_iff] at h
  push_neg at h
  rw [rank2_eq_entryRank hb, rank2_eq_entryRank ha] at h
  rcases Nat.lt_or_ge (entryRank a) (entryRank b) with hc | hc
  · exact Or.inl hc
  · have heq : entryRank a = entryRank b := by
      have := h.1
      omega
    refine Or.inr ⟨heq, ?_⟩
    exact Bool.eq_false_iff.mpr (h.2 (by omega))

/-- C5: every listing returned by the tree navigator places directories
before submodules before regular files, sorts each group lexicographically
by name, and is a permutation of the constructed entries. -/
theorem getTree_ordering (sizeOf : Str → Option Int) (raw : List TreeEntryRaw) :
    (GetTreeEntries sizeOf raw).Pairwise entryOrd ∧
    (GetTreeEntries sizeOf raw).Perm (raw.map (mkTreeEntry sizeOf)) := by
  have hperm : (GetTreeEntries sizeOf raw).Perm (raw.map (mkTreeEntry sizeOf)) :=
    sortEntries_perm (raw.map (mkTreeEntry sizeOf))
  have hwf : ∀ e ∈ GetTreeEntries sizeOf raw, entryWf e := by
    intro e he
    obtain ⟨f, _, rfl⟩ := List.mem_map.mp (hperm.mem_iff.mp he)
    exact mkTreeEntry_wf sizeOf f
  refine ⟨?_, hperm⟩
  exact List.Pairwise.imp_of_mem
    (fun {x y} hx hy hxy => entryLE_imp_ord (hwf x hx) (hwf y hy) hxy)
    (sortEntries_pairwise (raw.map (mkTreeEntry sizeOf)))

/-- C4: reference resolution tries, in order: branch short name, tag short
name, the default reference for the empty string or HEAD, a raw commit
identifier, and finally the default reference again; a name naming both a
branch and a tag resolves to the branch, and resolution fails exactly when
nothing matched and the default reference itself cannot be resolved. -/
theorem resolveRef_order (r : RefRepo) (ref : Str) :
    (∀ h, r.branch ref = some h → resolveRef r ref = .ok h) ∧
    (r.branch ref = none → ∀ h, r.tag ref = some h → resolveRef r ref = .ok h) ∧
    (r.branch ref = none → r.tag ref = none → (ref = strOf "HEAD" ∨ ref = []) →
      ∀ h, r.head = some h → resolveRef r ref = .ok h) ∧
    (r.branch ref = none → r.tag ref = none → r.head = none →
      r.isCommit (goNewHash ref) = true → resolveRef r ref = .ok (goNewHash ref)) ∧
    (r.branch ref = none → r.tag ref = none → ¬(ref = strOf "HEAD" ∨ ref = []) →
      r.isCommit (goNewHash ref) = true → resolveRef r ref = .ok (goNewHash ref)) ∧
    (r.branch ref = none → r.tag ref = none → r.isCommit (goNewHash ref) = false →
      ∀ h, r.head = some h → resolveRef r ref = .ok h) ∧
    (resolveRef r ref = .error () ↔
      r.branch ref = none ∧ r.tag ref = none ∧
      r.isCommit (goNewHash ref) = false ∧ r.head = none) := by
  unfold resolveRef
  cases hb : r.branch ref <;> cases ht : r.tag ref <;> cases hh : r.head <;>
    cases hc : r.isCommit (goNewHash ref) <;>
    by_cases hr : (ref = strOf "HEAD" ∨ ref = []) <;>
    simp_all

/-- Witness for C4: in a concrete repository where the name names both a
branch and a tag, the branch's revision wins. -/
theorem resolveRef_order_witness :
    resolveRef
      { branch := fun s => if s = strOf "foo" then some [1] else none
        tag := fun s => if s = strOf "foo" then some [2] else none
        head := some [3]
        isCommit := fun _ => false }
      (strOf "foo") = .ok [1] :=
  (resolveRef_order
      { branch := fun s => if s = strOf "foo" then some [1] else none
        tag := fun s => if s = strOf "foo" then some [2] else none
        head := some [3]
        isCommit := fun _ => false }
      (strOf "foo")).1 [1] (by decide)

lemma lineTypeOf_eq_add_iff (ct : Nat) : lineTypeOf ct = strOf "add" ↔ ct = 1 := by
  rcases ct with _ | _ | _ | n
  · exact iff_of_false (by decide) (by decide)
  · exact iff_of_true rfl rfl
  · exact iff_of_false (by decide) (by decide)
  · refine iff_of_false (fun hcon => ?_) (by omega)
    exact (by decide : ¬ (([] : Str) = strOf "add")) hcon

lemma lineTypeOf_eq_delete_iff (ct : Nat) : lineTypeOf ct = strOf "delete" ↔ ct = 2 := by
  rcases ct with _ | _ | _ | n
  · exact iff_of_false (by decide) (by decide)
  · exact iff_of_false (by decide) (by decide)
  · exact iff_of_true rfl rfl
  · refine iff_of_false (fun hcon => ?_) (by omega)
    exact (by decide : ¬ (([] : Str) = strOf "delete")) hcon

lemma filter_const_type (ls : List Str) (t pat : Str) :
    ((ls.map (fun l => ({ type := t, content := l } : DiffLineM))).filter
      (fun l => l.type = pat)).length = if t = pat then ls.length else 0 := by
  induction ls with
  | nil => simp
  | cons a rest ih =>
    by_cases h : t = pat
    · subst h
      simp [List.filter_cons, ih]
    · simp [List.filter_cons, h, ih]

lemma processChunk_counts (chunk : Str × Nat) :
    ((processChunk chunk).1.filter (fun l => l.type = strOf "add")).length
        = (processChunk chunk).2.1 ∧
    ((processChunk chunk).1.filter (fun l => l.type = strOf "delete")).length
        = (processChunk chunk).2.2 := by
  rcases chunk with ⟨cont, ct⟩
  simp only [processChunk]
  rw [filter_const_type, filter_const_type]
  constructor
  · by_cases h : ct = 1
    · simp [h, lineTypeOf_eq_add_iff]
    · simp [h, (lineTypeOf_eq_add_iff ct).not.mpr h]
  · by_cases h : ct = 2
    · simp [h, lineTypeOf_eq_delete_iff]
    · simp [h, (lineTypeOf_eq_delete_iff ct).not.mpr h]

lemma processChunk_empty (chunk : Str × Nat) (h : (processChunk chunk).1 = []) :
    (processChunk chunk).2.1 = 0 ∧ (processChunk chunk).2.2 = 0 := by
  rcases chunk with ⟨cont, ct⟩
  simp only [processChunk] at h ⊢
  have hl : (goSplit cont '\n').filter (fun l => l ≠ []) = [] := by
    rcases hf : (goSplit cont '\n').filter (fun l => l ≠ []) with _ | ⟨x, xs⟩
    · exact hf
    · rw [hf] at h
      simp at h
  rw [hl]
  simp

lemma foldl_inv {α σ : Type} (P : σ → Prop) (f : σ → α → σ)
    (hstep : ∀ s a, P s → P (f s a)) :
    ∀ (l : List α) (s : σ), P s → P (l.foldl f s) := by
  intro l
  induction l with
  | nil => intro s h; exact h
  | cons a rest ih => intro s h; exact ih _ (hstep s a h)

lemma processFilePatches_spec (fps : List FilePatchM) :
    ppInv (processFilePatches fps) := by
  unfold processFilePatches
  refine foldl_inv ppInv _ ?_ fps (false, [], 0, 0) (by simp [ppInv])
  intro acc fp hacc
  by_cases hb : fp.isBinary = true
  · simpa [hb] using hacc
  · simp only [hb, Bool.false_eq_true, if_false]
    refine foldl_inv ppInv _ ?_ fp.chunks acc hacc
    intro acc2 chunk h2
    by_cases hk : (processChunk chunk).1 ≠ []
    · refine ⟨?_, ?_⟩ <;>
        simp [hk, ppInv, chunkAddCount, chunkDelCount, h2.1, h2.2,
          (processChunk_counts chunk).1, (processChunk_counts chunk).2]
    · have he : (processChunk chunk).1 = [] := by
        by_contra hc
        exact hk hc
      have h0 := processChunk_empty chunk he
      refine ⟨?_, ?_⟩ <;> simp [hk, ppInv, h2.1, h2.2, h0.1, h0.2]

lemma processChange_counts {ch : ChangeM} {fd : FileDiffM}
    (h : processChange ch = some fd) :
    fd.additions = fileAddCount fd ∧ fd.deletions = fileDelCount fd := by
  unfold processChange at h
  cases ha : ch.action with
  | none => rw [ha] at h; exact absurd h (by simp)
  | some a =>
    rw [ha] at h
    simp only [Option.some_inj] at h
    subst h
    cases hp : ch.patch with
    | none => simp [hp, fileAddCount, fileDelCount]
    | some fps =>
      have hs := processFilePatches_spec fps
      simp only [hp]
      exact ⟨hs.1.symm, hs.2.symm⟩

lemma processChanges_spec (changes : List ChangeM) : ∀ base : CommitDiffM,
    (processChanges base changes).commit = base.commit ∧
    (processChanges base changes).parentHash = base.parentHash ∧
    (processChanges base changes).files
      = base.files ++ changes.filterMap processChange ∧
    (processChanges base changes).stats.additions
      = base.stats.additions + totalAddLines (changes.filterMap processChange) ∧
    (processChanges base changes).stats.deletions
      = base.stats.deletions + totalDelLines (changes.filterMap processChange) := by
  induction changes with
  | nil =>
    intro base
    simp [processChanges, totalAddLines, totalDelLines]
  | cons ch chs ih =>
    intro base
    cases h : processChange ch with
    | none =>
      have hx := ih base
      simp only [processChanges, List.foldl_cons] at hx ⊢
      rw [h]
      simpa [List.filterMap_cons_none h] using hx
    | some fd =>
      have hcounts := processChange_counts h
      have hx := ih { base with
        files := base.files ++ [fd]
        stats :=
          { filesChanged := base.stats.filesChanged + 1
            additions := base.stats.additions + fd.additions
            deletions := base.stats.deletions + fd.deletions } }
      simp only [processChanges, List.foldl_cons] at hx ⊢
      rw [h]
      refine ⟨hx.1, hx.2.1, ?_, ?_, ?_⟩
      · rw [hx.2.2.1, List.filterMap_cons_some h]
        simp
      · rw [hx.2.2.2.1, List.filterMap_cons_some h]
        simp only [totalAddLines, List.map_cons, List.sum_cons]
        rw [hcounts.1]
        omega
      · rw [hx.2.2.2.2, List.filterMap_cons_some h]
        simp only [totalDelLines, List.map_cons, List.sum_cons]
        rw [hcounts.2]
        omega

lemma processChange_nilChange (f : Str × Bool × Str) :
    ∀ fd, processChange (nilChangeOf f) = some fd →
      fd.status = strOf "added" ∧ fd.deletions = 0 := by
  intro fd hfd
  rcases f with ⟨name, bin, cont⟩
  simp only [nilChangeOf, processChange, Option.some_inj] at hfd
  subst hfd
  refine ⟨rfl, ?_⟩
  rcases bin with _ | _
  · by_cases hc : cont = []
    · simp [processFilePatches, processChunk, hc]
    · simp [processFilePatches, processChunk, hc]
  · simp [processFilePatches]

lemma totalDel_nilChanges (fs : List (Str × Bool × Str)) :
    totalDelLines ((fs.map nilChangeOf).filterMap processChange) = 0 ∧
    ∀ fd ∈ (fs.map nilChangeOf).filterMap processChange, fd.status = strOf "added" := by
  induction fs with
  | nil => simp [totalDelLines]
  | cons f rest ih =>
    cases hf : processChange (nilChangeOf f) with
    | none =>
      simp only [List.map_cons, List.filterMap_cons_none hf]
      exact ih
    | some fd =>
      have hfacts := processChange_nilChange f fd hf
      have hcounts := processChange_counts hf
      simp only [List.map_cons, List.filterMap_cons_some hf]
      constructor
      · simp only [totalDelLines, List.map_cons, List.sum_cons]
        have h0 : fileDelCount fd = 0 := hcounts.2 ▸ hfacts.2
        have h1 := ih.1
        simp only [totalDelLines] at h1
        rw [h0, h1]
      · intro x hx
        rcases List.mem_cons.mp hx with rfl | hx2
        · exact hfacts.1
        · exact ih.2 x hx2

/-- C6: for every commit with zero parents, the diff is computed against an
empty baseline and every file in the result has status `added`, with total
deletions zero and an empty parent hash. -/
theorem getCommitDiff_rootCommit (r : DiffRepo) (hs : Str) (c : CommitData)
    (res : CommitDiffM)
    (hc : r.commits (goNewHash hs) = some c)
    (hp : c.parents = [])
    (hres : GetCommitDiff r hs = some res) :
    res.parentHash = [] ∧ res.stats.deletions = 0 ∧
    ∀ f ∈ res.files, f.status = strOf "added" := by
  have hpi : parentInfoOf r c = ([], none) := by
    unfold parentInfoOf
    rw [hp]
  unfold GetCommitDiff at hres
  rw [hc] at hres
  simp only [hpi] at hres
  cases ht : c.tree with
  | none =>
    rw [ht] at hres
    simp only [Option.some_inj] at hres
    subst hres
    simp
  | some t =>
    rw [ht] at hres
    simp only [Option.some_inj] at hres
    subst hres
    have hspec := processChanges_spec (diffTreeNil t)
      { commit := commitMeta c, parentHash := [], files := []
        stats := { filesChanged := 0, additions := 0, deletions := 0 } }
    have hnil := totalDel_nilChanges t.files
    refine ⟨hspec.2.1, ?_, ?_⟩
    · rw [hspec.2.2.2.2]
      have : totalDelLines ((diffTreeNil t).filterMap processChange) = 0 := by
        simpa [diffTreeNil] using hnil.1
      simp [this]
    · intro f hf
      rw [hspec.2.2.1] at hf
      simp only [List.nil_append] at hf
      have : f ∈ (t.files.map nilChangeOf).filterMap processChange := by
        simpa [diffTreeNil] using hf
      exact hnil.2 f this

/-- C7: for every commit with a resolvable parent, the returned statistics
satisfy: additions equal the number of add-tagged lines summed over all
chunks of all returned file diffs, and symmetrically for deletions. -/
theorem getCommitDiff_stats (r : DiffRepo) (hs : Str) (c : CommitData) (p : GoHash)
    (ps : List GoHash) (par : CommitData) (res : CommitDiffM)
    (hc : r.commits (goNewHash hs) = some c)
    (hp : c.parents = p :: ps)
    (hpar : r.commits p = some par)
    (hres : GetCommitDiff r hs = some res) :
    res.stats.additions = totalAddLines res.files ∧
    res.stats.deletions = totalDelLines res.files := by
  have hpi : parentInfoOf r c = (par.hash.take 8, par.tree) := by
    unfold parentInfoOf
    rw [hp]
    show (match r.commits p with
      | some parent => (parent.hash.take 8, parent.tree)
      | none => ([], none)) = (par.hash.take 8, par.tree)
    rw [hpar]
  unfold GetCommitDiff at hres
  rw [hc] at hres
  simp only [hpi] at hres
  cases ht : c.tree with
  | none =>
    rw [ht] at hres
    simp only [Option.some_inj] at hres
    subst hres
    simp [totalAddLines, totalDelLines]
  | some t =>
    simp only [ht] at hres
    have hbase : ∀ changes : List ChangeM,
        some (processChanges
          { commit := commitMeta c, parentHash := par.hash.take 8, files := []
            stats := { filesChanged := 0, additions := 0, deletions := 0 } } changes)
          = some res →
        res.stats.additions = totalAddLines res.files ∧
        res.stats.deletions = totalDelLines res.files := by
      intro changes hch
      simp only [Option.some_inj] at hch
      subst hch
      have hspec := processChanges_spec changes
        { commit := commitMeta c, parentHash := par.hash.take 8, files := []
          stats := { filesChanged := 0, additions := 0, deletions := 0 } }
      rw [hspec.2.2.1, hspec.2.2.2.1, hspec.2.2.2.2]
      simp
    cases hpt : par.tree with
    | none =>
      simp only [hpt] at hres
      exact hbase (diffTreeNil t) hres
    | some pt =>
      simp only [hpt] at hres
      cases hd : r.diff2 pt t with
      | none =>
        simp only [hd] at hres
        simp only [Option.some_inj] at hres
        subst hres
        simp [totalAddLines, totalDelLines]
      | some chs =>
        simp only [hd] at hres
        exact hbase chs hres

/-- C8: for every commit whose own tree (or whose tree comparison) fails to
load, `GetCommitDiff` returns a successful result holding only the commit
metadata, with an empty file list and all-zero statistics, instead of
propagating an error. -/
theorem getCommitDiff_degraded (r : DiffRepo) (hs : Str) (c : CommitData)
    (hc : r.commits (goNewHash hs) = some c) :
    (c.tree = none →
      GetCommitDiff r hs = some
        { commit := commitMeta c, parentHash := (parentInfoOf r c).1
          files := [], stats := { filesChanged := 0, additions := 0, deletions := 0 } }) ∧
    (∀ t pt, c.tree = some t → (parentInfoOf r c).2 = some pt → r.diff2 pt t = none →
      GetCommitDiff r hs = some
        { commit := commitMeta c, parentHash := (parentInfoOf r c).1
          files := [], stats := { filesChanged := 0, additions := 0, deletions := 0 } }) := by
  constructor
  · intro ht
    unfold GetCommitDiff
    rw [hc]
    simp only [ht]
  · intro t pt ht hpt hd
    unfold GetCommitDiff
    rw [hc]
    simp only [ht, hpt, hd]

/-- Witness for C6: a concrete parentless commit yields only `added` files,
zero deletions and an empty parent hash. -/
theorem getCommitDiff_rootCommit_witness :
    rootResW.parentHash = [] ∧ rootResW.stats.deletions = 0 ∧
    ∀ f ∈ rootResW.files, f.status = strOf "added" :=
  getCommitDiff_rootCommit rootRepoW (strOf "aabbccdd") rootCommitW rootResW
    (by decide) (by decide) (by decide)

/-- Witness for C7: on a concrete commit with a resolvable parent, the
returned statistics equal the tagged-line sums. -/
theorem getCommitDiff_stats_witness :
    diffResW.stats.additions = totalAddLines diffResW.files ∧
    diffResW.stats.deletions = totalDelLines diffResW.files :=
  getCommitDiff_stats diffRepoW (strOf "ffeeddcc") diffCommitW [7] [] diffParentW diffResW
    (by decide) (by decide) (by decide) (by decide)

/-- Witness for C8: a concrete commit with an unloadable tree yields the
metadata-only result. -/
theorem getCommitDiff_degraded_witness :
    GetCommitDiff brokenRepoW (strOf "12341234") = some
      { commit := commitMeta brokenCommitW
        parentHash := (parentInfoOf brokenRepoW brokenCommitW).1
        files := [], stats := { filesChanged := 0, additions := 0, deletions := 0 } } :=
  (getCommitDiff_degraded brokenRepoW (strOf "12341234") brokenCommitW (by decide)).1
    (by decide)

lemma takeWhile_all {p : Char → Bool} {l : Str} (h : ∀ x ∈ l, p x = true) :
    l.takeWhile p = l := by
  induction l with
  | nil => rfl
  | cons a rest ih =>
    have ha : p a = true := h a (List.mem_cons_self a rest)
    simp [List.takeWhile_cons, ha, ih (fun x hx => h x (List.mem_cons_of_mem a hx))]

lemma unescapePath_no_escape : ∀ {l : Str}, '%' ∉ l → unescapePath l = some l := by
  intro l h
  induction l with
  | nil => rfl
  | cons a rest ih =>
    have ha : a ≠ '%' := fun he => h (he ▸ List.mem_cons_self a rest)
    have hr : '%' ∉ rest := fun hm => h (List.mem_cons_of_mem a hm)
    simp [unescapePath, ha, ih hr]

lemma char_ne_of_pred {q : Char → Bool} {l : Str} (hl : ∀ c ∈ l, q c = true)
    {d : Char} (hd : q d = false) : ∀ x ∈ l, x ≠ d := by
  intro x hx he
  have h1 := hl x hx
  rw [he, hd] at h1
  exact Bool.false_ne_true h1

lemma scpMatch_eval {H P : Str} (hH : H ≠ []) (hHc : ∀ c ∈ H, hostChar c = true)
    (hP : P ≠ []) :
    scpMatch (strOf "git@" ++ (H ++ ':' :: (P ++ strOf ".git"))) = some (H, P) := by
  have hpre : (strOf "git@").isPrefixOf
      (strOf "git@" ++ (H ++ ':' :: (P ++ strOf ".git"))) = true := by
    rw [List.isPrefixOf_iff_prefix]
    exact List.prefix_append _ _
  have hdrop : (strOf "git@" ++ (H ++ ':' :: (P ++ strOf ".git"))).drop 4
      = H ++ ':' :: (P ++ strOf ".git") := by
    rw [show (4 : Nat) = (strOf "git@").length from rfl, List.drop_left]
  have htake : (H ++ ':' :: (P ++ strOf ".git")).takeWhile (fun c => c ≠ ':') = H := by
    apply takeWhile_middle
    · intro x hx
      exact decide_eq_true (char_ne_of_pred hHc (by decide) x hx)
    · decide
  have hdrop2 : (H ++ ':' :: (P ++ strOf ".git")).drop H.length
      = ':' :: (P ++ strOf ".git") := List.drop_left _ _
  have hsuf : (strOf ".git").isSuffixOf (P ++ strOf ".git") = true := by
    rw [List.isSuffixOf_iff_suffix]
    exact List.suffix_append _ _
  have hlen : (P ++ strOf ".git").length > 4 := by
    have h1 : 1 ≤ P.length := List.length_pos.mpr hP
    simp only [List.length_append]
    have h2 : (strOf ".git").length = 4 := rfl
    omega
  simp only [scpMatch, hpre, if_true, hdrop, htake, hdrop2]
  simp [hH, hP, hsuf]
  have hlp : 0 < P.length := List.length_pos.mpr hP
  rw [show (strOf ".git").length = 4 from rfl]
  rw [if_pos (by omega : 4 < P.length + 4)]
  rw [Nat.add_sub_cancel, List.take_left]

lemma scpMatch_https_none (X : Str) : scpMatch (strOf "https://" ++ X) = none := by
  have hpre : (strOf "git@").isPrefixOf (strOf "https://" ++ X) = false := by
    show (strOf "git@").isPrefixOf ('h' :: (strOf "ttps://" ++ X)) = false
    simp [List.isPrefixOf]
  simp [scpMatch, hpre]

lemma urlHostPath_https (Y : Str) :
    urlHostPath (strOf "https://" ++ Y) = urlAuthorityPart Y := by
  have h1 : (strOf "//").isPrefixOf (strOf "https://" ++ Y) = false := rfl
  have h2 : (strOf "https://" ++ Y).takeWhile isSchemeChar = strOf "https" := rfl
  have h3 : (strOf "https://" ++ Y).drop ((strOf "https").length + 3) = Y := rfl
  have h4 : (strOf "https").head? = some 'h' := rfl
  have h5 : ('h').isAlpha = true := rfl
  have h6 : (strOf "://").isPrefixOf
      ((strOf "https://" ++ Y).drop (strOf "https").length) = true := by
    show (strOf "://").isPrefixOf (':' :: '/' :: '/' :: Y) = true
    simp [List.isPrefixOf]
  simp only [urlHostPath, h1, h2, h3, h4, h5, h6]
  simp

lemma urlHostPath_eval {H P : Str} (hH : H ≠ []) (hHc : ∀ c ∈ H, hostChar c = true)
    (hPc : ∀ c ∈ P, pathChar c = true) :
    urlHostPath (strOf "https://" ++ (H ++ '/' :: (P ++ strOf ".git")))
      = some (H, '/' :: (P ++ strOf ".git")) := by
  rw [urlHostPath_https]
  have hauth : (H ++ '/' :: (P ++ strOf ".git")).takeWhile
      (fun c => !(c == '/') && !(c == '?') && !(c == '#')) = H := by
    apply takeWhile_middle
    · intro x hx
      have e1 : (x == '/') = false :=
        beq_eq_false_iff_ne.mpr (char_ne_of_pred hHc (d := '/') (by decide) x hx)
      have e2 : (x == '?') = false :=
        beq_eq_false_iff_ne.mpr (char_ne_of_pred hHc (d := '?') (by decide) x hx)
      have e3 : (x == '#') = false :=
        beq_eq_false_iff_ne.mpr (char_ne_of_pred hHc (d := '#') (by decide) x hx)
      simp [e1, e2, e3]
    · decide
  have hat : cutLastChar '@' H = none := by
    apply cutLastChar_of_not_mem
    intro hmem
    exact char_ne_of_pred hHc (d := '@') (by decide) '@' hmem rfl
  have hdropH : (H ++ '/' :: (P ++ strOf ".git")).drop H.length
      = '/' :: (P ++ strOf ".git") := List.drop_left _ _
  have hrawp : ('/' :: (P ++ strOf ".git")).takeWhile (fun c => !(c == '?') && !(c == '#'))
      = '/' :: (P ++ strOf ".git") := by
    apply takeWhile_all
    intro x hx
    rcases List.mem_cons.mp hx with rfl | hx2
    · decide
    · rcases List.mem_append.mp hx2 with hx3 | hx3
      · have e2 : (x == '?') = false :=
          beq_eq_false_iff_ne.mpr (char_ne_of_pred hPc (d := '?') (by decide) x hx3)
        have e3 : (x == '#') = false :=
          beq_eq_false_iff_ne.mpr (char_ne_of_pred hPc (d := '#') (by decide) x hx3)
        simp [e2, e3]
      · have hall : ∀ y ∈ strOf ".git", (!(y == '?') && !(y == '#')) = true := by decide
        exact hall x hx3
  have hunesc : unescapePath ('/' :: (P ++ strOf ".git"))
      = some ('/' :: (P ++ strOf ".git")) := by
    apply unescapePath_no_escape
    intro hmem
    rcases List.mem_cons.mp hmem with h1 | h1
    · exact absurd h1.symm (by decide)
    · rcases List.mem_append.mp h1 with h2 | h2
      · exact char_ne_of_pred hPc (d := '%') (by decide) '%' h2 rfl
      · revert h2
        decide
  simp only [urlAuthorityPart, hauth, hat, hdropH, hrawp, hunesc]
  simp [hH]

/-- C9 counterexample: the claim quantifies over every host and path, but
for the path `x.git` the SCP-style form strips `.git` twice (once in the
regular expression's optional group and once in the explicit suffix trim)
while the URL form strips it once, so the two outputs differ. -/
theorem convertToWebURL_counterexample :
    ConvertToWebURL (strOf "git@example.com:x.git.git") (strOf "h") ≠
      ConvertToWebURL (strOf "https://example.com/x.git.git") (strOf "h") := by
  decide

/-- C9 (amended): for every non-empty host of host characters and non-empty
path of path characters that does not itself end in `.git`, the SCP-style
clone URL and the standard URL normalize to the same host and path and
`ConvertToWebURL` produces identical output for both forms; a clone URL
matching neither shape is returned unchanged. -/
theorem convertToWebURL_agree (H P hash : Str)
    (hH : H ≠ []) (hHc : ∀ c ∈ H, hostChar c = true)
    (hP : P ≠ []) (hPc : ∀ c ∈ P, pathChar c = true)
    (hPg : (strOf ".git").isSuffixOf P = false) :
    scpMatch (strOf "git@" ++ (H ++ ':' :: (P ++ strOf ".git"))) = some (H, P) ∧
    urlHostPath (strOf "https://" ++ (H ++ '/' :: (P ++ strOf ".git")))
      = some (H, '/' :: (P ++ strOf ".git")) ∧
    ConvertToWebURL (strOf "git@" ++ (H ++ ':' :: (P ++ strOf ".git"))) hash
      = formatWebURL H P hash ∧
    ConvertToWebURL (strOf "https://" ++ (H ++ '/' :: (P ++ strOf ".git"))) hash
      = formatWebURL H P hash ∧
    (∀ s : Str, scpMatch s = none → urlHostPath s = none →
      ConvertToWebURL s hash = s) := by
  refine ⟨scpMatch_eval hH hHc hP, urlHostPath_eval hH hHc hPc, ?_, ?_, ?_⟩
  · simp only [ConvertToWebURL, scpMatch_eval hH hHc hP, trimSuffixGo, hPg]
    simp
  · have hs : scpMatch (strOf "https://" ++ (H ++ '/' :: (P ++ strOf ".git"))) = none :=
      scpMatch_https_none _
    simp only [ConvertToWebURL, hs, urlHostPath_eval hH hHc hPc]
    have ht1 : trimSuffixGo ('/' :: (P ++ strOf ".git")) (strOf ".git") = '/' :: P := by
      unfold trimSuffixGo
      have hs1 : (strOf ".git").isSuffixOf ('/' :: (P ++ strOf ".git")) = true := by
        rw [List.isSuffixOf_iff_suffix]
        exact ⟨'/' :: P, by simp⟩
      rw [if_pos hs1]
      rw [show ('/' :: (P ++ strOf ".git")) = ('/' :: P) ++ strOf ".git" from by simp]
      rw [show (('/' :: P) ++ strOf ".git").length - (strOf ".git").length
          = ('/' :: P).length from by simp [List.length_append]; omega]
      exact List.take_left _ _
    have ht2 : trimPrefixGo ('/' :: P) (strOf "/") = P := by
      unfold trimPrefixGo
      have hp1 : (strOf "/").isPrefixOf ('/' :: P) = true := by
        simp [List.isPrefixOf]
      simp [hp1, show (strOf "/").length = 1 from rfl]
    rw [ht1, ht2]
  · intro s h1 h2
    simp [ConvertToWebURL, h1, h2]

/-- Witness for C9: the spec's own example, host `example.com` and path
`org/repo`, evaluated through the amended theorem. -/
theorem convertToWebURL_agree_witness :
    ConvertToWebURL (strOf "git@" ++ (strOf "example.com" ++ ':'
        :: (strOf "org/repo" ++ strOf ".git"))) (strOf "abc")
      = formatWebURL (strOf "example.com") (strOf "org/repo") (strOf "abc") ∧
    ConvertToWebURL (strOf "https://" ++ (strOf "example.com" ++ '/'
        :: (strOf "org/repo" ++ strOf ".git"))) (strOf "abc")
      = formatWebURL (strOf "example.com") (strOf "org/repo") (strOf "abc") ∧
    ConvertToWebURL (strOf "not a url") (strOf "abc") = strOf "not a url" := by
  have h := convertToWebURL_agree (strOf "example.com") (strOf "org/repo") (strOf "abc")
    (by decide) (by decide) (by decide) (by decide) (by decide)
  exact ⟨h.2.2.1, h.2.2.2.1, h.2.2.2.2 (strOf "not a url") (by decide) (by decide)⟩

/-- Witness for C10: the IPv4-mapped form of a tailnet address is trusted. -/
theorem isTailnetIP_v4mapped_witness :
    IsTailnetIP (strOf "::ffff:100.64.0.1") = true :=
  (isTailnetIP_v4mapped (strOf "::ffff:100.64.0.1")
      [0, 0, 0, 0, 0, 0, 0, 0, 0, 0, 255, 255, 100, 64, 0, 1] 100 64 0 1
      (by decide) (by decide)).mpr ⟨rfl, by decide, by decide⟩
